import Mathlib

/-!
Verification of the photo Elo ranker (src/main.py) against its
natural-language specification.

Modelling conventions.  Python strings are modelled as lists of
characters.  Python dicts are modelled as association lists kept in
insertion order: assignment to an existing key replaces its value in
place, assignment to a fresh key appends at the end, which is exactly
the observable ordering behaviour of a CPython dict.  The IEEE-754
float arithmetic of `elo_update` is idealised as real-number
arithmetic.  The score file is modelled as the list of its lines;
scores at the file level are exact rationals (Python's `str`/`float`
round-trip on floats is exact, which the rational model mirrors, and
every IEEE float is a rational with denominator dividing a power of
ten).  Python's `float(...)` parser is modelled on the plain decimal
fragment of its grammar (optional surrounding whitespace, optional
sign, digits with an optional fractional part); the exponent,
underscore and inf/nan forms, which `save_rankings` never emits and no
claim exercises, are not modelled.
-/

set_option maxRecDepth 10000

/-- An item key (a filename in the source): a Python string. -/
abbrev Item := List Char

/-- One line of the score file, without its trailing newline. -/
abbrev Line := List Char

/-- Association-list model of a Python dict keyed by strings. -/
abbrev Table (α : Type) := List (Item × α)

/-- Dict read `t[k]`: the value at the first matching key, if any. -/
def lookupVal {α : Type} (t : Table α) (k : Item) : Option α :=
  match t with
  | [] => none
  | (a, b) :: rest => if a = k then some b else lookupVal rest k

/-- Dict write `t[k] = v`: replace in place, or append if the key is fresh. -/
def setVal {α : Type} (t : Table α) (k : Item) (v : α) : Table α :=
  match t with
  | [] => [(k, v)]
  | (a, b) :: rest => if a = k then (a, v) :: rest else (a, b) :: setVal rest k v

/-- The keys of a table, in order. -/
def keysOf {α : Type} (t : Table α) : List Item :=
  t.map Prod.fst

/-- DEFAULT_ELO constant of the source. -/
def DEFAULT_ELO : ℚ := 1000

/-- K_FACTOR constant of the source. -/
noncomputable def K_FACTOR : ℝ := 32

/-- Embedding of `elo_update(rankings, winner, loser, k=K_FACTOR)`.
The source first reads `rankings[loser]` and `rankings[winner]` (a
missing key raises `KeyError` before any mutation, modelled as `none`),
then assigns the winner's new score, then re-reads and assigns the
loser's entry in the updated dict. -/
noncomputable def elo_update (rankings : Table ℝ) (winner loser : Item)
    (k : ℝ := K_FACTOR) : Option (Table ℝ) :=
  match lookupVal rankings loser, lookupVal rankings winner with
  | some sl, some sw =>
    let exp_win : ℝ := 1 / (1 + (10 : ℝ) ^ ((sl - sw) / 400))
    let t1 := setVal rankings winner (sw + k * (1 - exp_win))
    match lookupVal t1 loser with
    | some sl1 => some (setVal t1 loser (sl1 - k * exp_win))
    | none => none
  | _, _ => none

theorem keysOf_nil {α : Type} : keysOf ([] : Table α) = [] := rfl

theorem keysOf_cons {α : Type} (p : Item × α) (t : Table α) :
    keysOf (p :: t) = p.1 :: keysOf t := rfl

theorem lookupVal_setVal_self {α : Type} (t : Table α) (k : Item) (v : α) :
    lookupVal (setVal t k v) k = some v := by
  induction t with
  | nil => simp [setVal, lookupVal]
  | cons p rest ih =>
    obtain ⟨a, b⟩ := p
    by_cases h : a = k <;> simp [setVal, lookupVal, h, ih]

theorem lookupVal_setVal_ne {α : Type} (t : Table α) (k k' : Item) (v : α)
    (h : k' ≠ k) : lookupVal (setVal t k v) k' = lookupVal t k' := by
  have hk : ¬(k = k') := fun hh => h hh.symm
  induction t with
  | nil => simp only [setVal, lookupVal, if_neg hk]
  | cons p rest ih =>
    obtain ⟨a, b⟩ := p
    by_cases ha : a = k
    · subst ha
      simp only [setVal, if_pos rfl, lookupVal, if_neg hk]
    · simp only [setVal, if_neg ha, lookupVal]
      by_cases ha' : a = k'
      · simp only [if_pos ha']
      · simp only [if_neg ha', ih]

theorem mem_keysOf_of_lookupVal {α : Type} {t : Table α} {k : Item} {v : α}
    (h : lookupVal t k = some v) : k ∈ keysOf t := by
  induction t with
  | nil => simp [lookupVal] at h
  | cons p rest ih =>
    obtain ⟨a, b⟩ := p
    rw [keysOf_cons]
    by_cases ha : a = k
    · exact List.mem_cons.mpr (Or.inl ha.symm)
    · simp only [lookupVal, if_neg ha] at h
      exact List.mem_cons.mpr (Or.inr (ih h))

theorem keysOf_setVal_mem {α : Type} (t : Table α) (k : Item) (v : α)
    (h : k ∈ keysOf t) : keysOf (setVal t k v) = keysOf t := by
  induction t with
  | nil => simp [keysOf_nil] at h
  | cons p rest ih =>
    obtain ⟨a, b⟩ := p
    rw [keysOf_cons] at h
    by_cases ha : a = k
    · simp only [setVal, if_pos ha, keysOf_cons]
    · rcases List.mem_cons.mp h with h' | h'
      · exact absurd h'.symm ha
      · simp only [setVal, if_neg ha, keysOf_cons, ih h']

theorem setVal_lookupVal_self {α : Type} {t : Table α} {k : Item} {v : α}
    (h : lookupVal t k = some v) : setVal t k v = t := by
  induction t with
  | nil => simp [lookupVal] at h
  | cons p rest ih =>
    obtain ⟨a, b⟩ := p
    by_cases ha : a = k
    · simp only [lookupVal, if_pos ha, Option.some.injEq] at h
      simp only [setVal, if_pos ha, h]
    · simp only [lookupVal, if_neg ha] at h
      simp only [setVal, if_neg ha, ih h]

/-- The expected-score expression of `elo_update`, named for reuse in proofs. -/
noncomputable def expWin (sl sw : ℝ) : ℝ :=
  1 / (1 + (10 : ℝ) ^ ((sl - sw) / 400))

theorem expWin_pos (sl sw : ℝ) : 0 < expWin sl sw := by
  have hp : (0 : ℝ) < (10 : ℝ) ^ ((sl - sw) / 400) :=
    Real.rpow_pos_of_pos (by norm_num) _
  have : (0 : ℝ) < 1 + (10 : ℝ) ^ ((sl - sw) / 400) := by linarith
  exact div_pos one_pos this

theorem expWin_lt_one (sl sw : ℝ) : expWin sl sw < 1 := by
  have hp : (0 : ℝ) < (10 : ℝ) ^ ((sl - sw) / 400) :=
    Real.rpow_pos_of_pos (by norm_num) _
  have h1 : (0 : ℝ) < 1 + (10 : ℝ) ^ ((sl - sw) / 400) := by linarith
  rw [expWin, div_lt_one h1]
  linarith

theorem expWin_self (s : ℝ) : expWin s s = 1 / 2 := by
  have : ((s - s) / 400 : ℝ) = 0 := by ring
  rw [expWin, this, Real.rpow_zero]
  norm_num

/-- Successful-path equation for `elo_update` with distinct present items. -/
theorem elo_update_eq (t : Table ℝ) (w l : Item) (sw sl k : ℝ)
    (hwl : w ≠ l) (hw : lookupVal t w = some sw) (hl : lookupVal t l = some sl) :
    elo_update t w l k =
      some (setVal (setVal t w (sw + k * (1 - expWin sl sw))) l
        (sl - k * expWin sl sw)) := by
  have h1 : lookupVal (setVal t w (sw + k * (1 - expWin sl sw))) l = some sl := by
    rw [lookupVal_setVal_ne t w l _ (fun h => hwl h.symm)]
    exact hl
  simp only [expWin] at h1 ⊢
  simp only [elo_update, hl, hw, h1]

/-- `elo_update` when one of the items is missing: the lookups in the
`exp_win` expression fail before anything is mutated. -/
theorem elo_update_absent (t : Table ℝ) (w l : Item) (k : ℝ)
    (h : lookupVal t w = none ∨ lookupVal t l = none) :
    elo_update t w l k = none := by
  rcases h with h | h
  · rcases hl : lookupVal t l with _ | sl <;> simp only [elo_update, h, hl]
  · simp only [elo_update, h]

theorem setVal_setVal_same {α : Type} (t : Table α) (k : Item) (v v' : α) :
    setVal (setVal t k v) k v' = setVal t k v' := by
  induction t with
  | nil => simp [setVal]
  | cons p rest ih =>
    obtain ⟨a, b⟩ := p
    by_cases ha : a = k <;> simp [setVal, ha, ih]

/-- `elo_update` on a self-decision: both in-place updates hit the same
key, the second reads the value written by the first, and with
`exp_win = 1/2` the net change is zero — no error at all is raised. -/
theorem elo_update_self (t : Table ℝ) (a : Item) (s k : ℝ)
    (h : lookupVal t a = some s) : elo_update t a a k = some t := by
  have h1 : lookupVal (setVal t a (s + k * (1 - 1 / (1 + (10:ℝ) ^ ((s - s) / 400))))) a
      = some (s + k * (1 - 1 / (1 + (10:ℝ) ^ ((s - s) / 400)))) :=
    lookupVal_setVal_self t a _
  simp only [elo_update, h, h1]
  rw [setVal_setVal_same]
  have hv : s + k * (1 - 1 / (1 + (10:ℝ) ^ ((s - s) / 400)))
      - k * (1 / (1 + (10:ℝ) ^ ((s - s) / 400))) = s := by
    have hz : ((s - s) / 400 : ℝ) = 0 := by ring
    rw [hz, Real.rpow_zero]
    ring
  rw [hv, setVal_lookupVal_self h]

/-- C1: for every rating table and every pair of distinct items
(winner `w`, loser `l`) present in it with scores `Sw` and `Sl`,
`elo_update` (with its fixed default `K = 32`) sets the winner's score
to `Sw + K*(1 - E)` and the loser's to `Sl - K*E`, where
`E = 1 / (1 + 10^((Sl - Sw)/400))`. -/
theorem c1_elo_update_formula (t : Table ℝ) (w l : Item) (sw sl : ℝ)
    (hwl : w ≠ l) (hw : lookupVal t w = some sw) (hl : lookupVal t l = some sl) :
    ∃ t', elo_update t w l = some t' ∧
      lookupVal t' w = some (sw + 32 * (1 - 1 / (1 + (10:ℝ) ^ ((sl - sw) / 400)))) ∧
      lookupVal t' l = some (sl - 32 * (1 / (1 + (10:ℝ) ^ ((sl - sw) / 400)))) := by
  have heq := elo_update_eq t w l sw sl K_FACTOR hwl hw hl
  have hK : K_FACTOR = 32 := rfl
  rw [hK] at heq
  refine ⟨_, heq, ?_, ?_⟩
  · rw [lookupVal_setVal_ne _ l w _ hwl, lookupVal_setVal_self]
    simp only [expWin]
  · rw [lookupVal_setVal_self]
    simp only [expWin]

/-- Witness for C1 at a concrete two-item table. -/
theorem c1_witness :
    ∃ t', elo_update [(['a'], (1000:ℝ)), (['b'], (1000:ℝ))] ['a'] ['b'] = some t' ∧
      lookupVal t' ['a']
        = some (1000 + 32 * (1 - 1 / (1 + (10:ℝ) ^ (((1000:ℝ) - 1000) / 400)))) ∧
      lookupVal t' ['b']
        = some (1000 - 32 * (1 / (1 + (10:ℝ) ^ (((1000:ℝ) - 1000) / 400)))) :=
  c1_elo_update_formula [(['a'], (1000:ℝ)), (['b'], (1000:ℝ))] ['a'] ['b'] 1000 1000
    (by decide) (by simp [lookupVal]) (by simp [lookupVal])

/-- C8: for distinct present items, applying a decision strictly
increases the winner's score, strictly decreases the loser's, and each
one-step change has magnitude bounded by `K = 32`. -/
theorem c8_elo_monotone_bounded (t : Table ℝ) (w l : Item) (sw sl : ℝ)
    (hwl : w ≠ l) (hw : lookupVal t w = some sw) (hl : lookupVal t l = some sl) :
    ∃ t' sw' sl', elo_update t w l = some t' ∧
      lookupVal t' w = some sw' ∧ lookupVal t' l = some sl' ∧
      sw < sw' ∧ sl' < sl ∧ |sw' - sw| ≤ 32 ∧ |sl' - sl| ≤ 32 := by
  have heq := elo_update_eq t w l sw sl K_FACTOR hwl hw hl
  have hK : K_FACTOR = 32 := rfl
  rw [hK] at heq
  have hE0 := expWin_pos sl sw
  have hE1 := expWin_lt_one sl sw
  refine ⟨_, sw + 32 * (1 - expWin sl sw), sl - 32 * expWin sl sw,
    heq, ?_, ?_, ?_, ?_, ?_, ?_⟩
  · rw [lookupVal_setVal_ne _ l w _ hwl]
    exact lookupVal_setVal_self ..
  · exact lookupVal_setVal_self ..
  · nlinarith
  · nlinarith
  · rw [abs_le]
    constructor <;> nlinarith
  · rw [abs_le]
    constructor <;> nlinarith

/-- Witness for C8 at a concrete two-item table. -/
theorem c8_witness :
    ∃ t' sw' sl', elo_update [(['a'], (1000:ℝ)), (['b'], (1000:ℝ))] ['a'] ['b'] = some t' ∧
      lookupVal t' ['a'] = some sw' ∧ lookupVal t' ['b'] = some sl' ∧
      1000 < sw' ∧ sl' < 1000 ∧ |sw' - 1000| ≤ 32 ∧ |sl' - 1000| ≤ 32 :=
  c8_elo_monotone_bounded [(['a'], (1000:ℝ)), (['b'], (1000:ℝ))] ['a'] ['b'] 1000 1000
    (by decide) (by simp [lookupVal]) (by simp [lookupVal])

/-- C9: a valid decision (winner and loser distinct and both present)
changes only the winner's and loser's entries: every other key keeps
its score, and the key set of the table is unchanged. -/
theorem c9_frame (t : Table ℝ) (w l : Item) (sw sl : ℝ)
    (hwl : w ≠ l) (hw : lookupVal t w = some sw) (hl : lookupVal t l = some sl) :
    ∃ t', elo_update t w l = some t' ∧ keysOf t' = keysOf t ∧
      ∀ x, x ≠ w → x ≠ l → lookupVal t' x = lookupVal t x := by
  have heq := elo_update_eq t w l sw sl K_FACTOR hwl hw hl
  refine ⟨_, heq, ?_, ?_⟩
  · have hwmem : w ∈ keysOf t := mem_keysOf_of_lookupVal hw
    have hlmem : l ∈ keysOf (setVal t w (sw + K_FACTOR * (1 - expWin sl sw))) := by
      rw [keysOf_setVal_mem _ _ _ hwmem]
      exact mem_keysOf_of_lookupVal hl
    rw [keysOf_setVal_mem _ _ _ hlmem, keysOf_setVal_mem _ _ _ hwmem]
  · intro x hxw hxl
    rw [lookupVal_setVal_ne _ _ _ _ hxl, lookupVal_setVal_ne _ _ _ _ hxw]

/-- Witness for C9 at a concrete three-item table. -/
theorem c9_witness :
    ∃ t', elo_update [(['a'], (1000:ℝ)), (['b'], (1000:ℝ)), (['c'], (900:ℝ))] ['a'] ['b']
        = some t' ∧
      keysOf t' = keysOf [(['a'], (1000:ℝ)), (['b'], (1000:ℝ)), (['c'], (900:ℝ))] ∧
      ∀ x, x ≠ ['a'] → x ≠ ['b'] →
        lookupVal t' x
          = lookupVal [(['a'], (1000:ℝ)), (['b'], (1000:ℝ)), (['c'], (900:ℝ))] x :=
  c9_frame [(['a'], (1000:ℝ)), (['b'], (1000:ℝ)), (['c'], (900:ℝ))] ['a'] ['b'] 1000 1000
    (by decide) (by simp [lookupVal]) (by simp [lookupVal])

/-- C4 counterexample: a decision whose winner equals its loser is not
rejected — on a present item `elo_update` completes without any error
condition, contradicting the claim that it fails. -/
theorem c4_counterexample :
    elo_update [(['a'], (1000:ℝ))] ['a'] ['a'] ≠ none := by
  rw [elo_update_self [(['a'], (1000:ℝ))] ['a'] 1000 K_FACTOR (by simp [lookupVal])]
  simp

/-- C4 amended: a decision referencing an item absent from the table
fails (uncaught `KeyError`, raised while computing `exp_win`, before
any mutation — modelled as `none`, with no updated table produced); a
self-decision on a present item is not rejected: the update is applied
without error and, in exact arithmetic, returns the table unchanged. -/
theorem c4_amended :
    (∀ (t : Table ℝ) (w l : Item) (k : ℝ),
        lookupVal t w = none ∨ lookupVal t l = none → elo_update t w l k = none) ∧
    (∀ (t : Table ℝ) (a : Item) (s k : ℝ),
        lookupVal t a = some s → elo_update t a a k = some t) :=
  ⟨elo_update_absent, elo_update_self⟩

/-- Witness for C4 amended: a decision on a missing item fails; a
self-decision on a present one returns the table unchanged. -/
theorem c4_amended_witness :
    elo_update ([] : Table ℝ) ['a'] ['b'] 32 = none ∧
    elo_update [(['a'], (1000:ℝ))] ['a'] ['a'] 32 = some [(['a'], (1000:ℝ))] :=
  ⟨c4_amended.1 [] ['a'] ['b'] 32 (Or.inl rfl),
   c4_amended.2 [(['a'], (1000:ℝ))] ['a'] 1000 32 (by simp [lookupVal])⟩

/-- Python's default whitespace set for `str.strip` (its ASCII fragment). -/
def isPySpace (c : Char) : Bool :=
  c = ' ' || c = '\t' || c = '\n' || c = '\r' || c = '\x0b' || c = '\x0c'

/-- Model of `str.strip()`: drop whitespace from both ends. -/
def strip (cs : List Char) : List Char :=
  ((cs.dropWhile isPySpace).reverse.dropWhile isPySpace).reverse

/-- Model of `str.split(sep)` for a one-character separator, with
Python's semantics: splitting the empty string yields one empty field,
and n separators always yield n+1 fields. -/
def splitOnCh (sep : Char) : List Char → List (List Char)
  | [] => [[]]
  | c :: cs =>
    if c = sep then [] :: splitOnCh sep cs
    else
      match splitOnCh sep cs with
      | [] => [[c]]
      | p :: ps => (c :: p) :: ps

/-- The numeric value of a decimal digit character, if it is one. -/
def digitVal? (c : Char) : Option ℕ :=
  if '0' ≤ c ∧ c ≤ '9' then some (c.toNat - 48) else none

/-- Big-endian accumulation of a decimal digit string's value. -/
def digitsToNat (cs : List Char) : ℕ :=
  cs.foldl (fun a c => a * 10 + (digitVal? c).getD 0) 0

/-- Interpretation of a numeral split at the first non-digit: either
nothing follows the integer digits, or a dot and fractional digits do;
anything else fails. -/
def parseParts (ip rest : List Char) : Option ℚ :=
  match rest with
  | [] => if ip.isEmpty then none else some (digitsToNat ip : ℚ)
  | c :: fp =>
    if c = '.' then
      if (ip.isEmpty && fp.isEmpty) || !(fp.all fun x => (digitVal? x).isSome) then
        none
      else some ((digitsToNat ip : ℚ) + (digitsToNat fp : ℚ) / 10 ^ fp.length)
    else none

/-- The unsigned part of Python's plain decimal `float` grammar:
integer digits, optionally a dot and fractional digits, at least one
digit in total. -/
def parseUnsigned (cs : List Char) : Option ℚ :=
  parseParts (cs.takeWhile fun c => (digitVal? c).isSome)
    (cs.dropWhile fun c => (digitVal? c).isSome)

/-- Model of Python `float(s)` on the plain decimal fragment of its
grammar (surrounding whitespace, an optional sign, digits with an
optional fractional part).  The exponent, underscore and inf/nan
forms, never emitted by `save_rankings`, are outside the model. -/
def parseFloat (cs : List Char) : Option ℚ :=
  match strip cs with
  | [] => none
  | c :: rest =>
    if c = '-' then (parseUnsigned rest).map (fun q => -q)
    else if c = '+' then parseUnsigned rest
    else parseUnsigned (c :: rest)

/-- The score-file loop of `get_rankings`: for each line,
`name, score = line.strip().split(":")` (anything but exactly two
fields raises an uncaught `ValueError`, modelled `none`), then
`if name in filenames: rankings[name] = float(score)` — so a
non-numeric score aborts only when its name is in the catalog. -/
def load_fold (filenames : List Item) (rankings : Table ℚ) :
    List Line → Option (Table ℚ)
  | [] => some rankings
  | line :: rest =>
    match splitOnCh ':' (strip line) with
    | [name, score] =>
      if name ∈ filenames then
        match parseFloat score with
        | some v => load_fold filenames (setVal rankings name v) rest
        | none => none
      else load_fold filenames rankings rest
    | _ => none

/-- The default table `{f: DEFAULT_ELO for f in filenames}`. -/
def init_table (filenames : List Item) : Table ℚ :=
  filenames.map (fun f => (f, DEFAULT_ELO))

/-- Embedding of `get_rankings(directory, filename)`: the catalog is
the set of image filenames, the file is `none` when
`os.path.exists(filename)` is false, else its list of lines. -/
def get_rankings (filenames : List Item) (file : Option (List Line)) :
    Option (Table ℚ) :=
  match file with
  | none => some (init_table filenames)
  | some lines => load_fold filenames (init_table filenames) lines

theorem load_fold_append (filenames : List Item) (xs ys : List Line) :
    ∀ t : Table ℚ, load_fold filenames t (xs ++ ys)
      = (load_fold filenames t xs).bind fun t2 => load_fold filenames t2 ys := by
  induction xs with
  | nil => intro t; simp [load_fold]
  | cons line rest ih =>
    intro t
    rw [List.cons_append]
    rcases hsplit : splitOnCh ':' (strip line) with _ | ⟨n, _ | ⟨s, _ | ⟨u, us⟩⟩⟩ <;>
      simp only [load_fold, hsplit]
    · rfl
    · rfl
    · by_cases hmem : n ∈ filenames
      · rcases hp : parseFloat s with _ | v
        · simp [hmem, hp]
        · simp [hmem, hp, ih]
      · simp [hmem, ih]
    · rfl

theorem load_fold_malformed (filenames : List Item) (t : Table ℚ) (bad : Line)
    (post : List Line) (h : (splitOnCh ':' (strip bad)).length ≠ 2) :
    load_fold filenames t (bad :: post) = none := by
  rcases hsplit : splitOnCh ':' (strip bad) with _ | ⟨n, _ | ⟨s, _ | ⟨u, us⟩⟩⟩
  · simp only [load_fold, hsplit]
  · simp only [load_fold, hsplit]
  · rw [hsplit] at h
    simp at h
  · simp only [load_fold, hsplit]

theorem load_fold_badscore (filenames : List Item) (t : Table ℚ) (bad : Line)
    (post : List Line) (n s : List Char)
    (hsplit : splitOnCh ':' (strip bad) = [n, s])
    (hmem : n ∈ filenames) (hp : parseFloat s = none) :
    load_fold filenames t (bad :: post) = none := by
  simp only [load_fold, hsplit, if_pos hmem, hp]

theorem load_fold_skip (filenames : List Item) (t : Table ℚ) (bad : Line)
    (post : List Line) (n s : List Char)
    (hsplit : splitOnCh ':' (strip bad) = [n, s])
    (hmem : n ∉ filenames) :
    load_fold filenames t (bad :: post) = load_fold filenames t post := by
  simp only [load_fold, hsplit, if_neg hmem]

theorem keysOf_init_table (filenames : List Item) :
    keysOf (init_table filenames) = filenames := by
  induction filenames with
  | nil => rfl
  | cons f rest ih =>
    simp only [init_table, List.map_cons, keysOf_cons] at ih ⊢
    rw [ih]

theorem lookupVal_init_table (filenames : List Item) (k : Item)
    (hk : k ∈ filenames) :
    lookupVal (init_table filenames) k = some DEFAULT_ELO := by
  induction filenames with
  | nil => simp at hk
  | cons f rest ih =>
    rcases List.mem_cons.mp hk with h | h
    · simp [init_table, lookupVal, h.symm]
    · by_cases hf : f = k
      · simp [init_table, lookupVal, hf]
      · simp only [init_table, List.map_cons, lookupVal, if_neg hf]
        exact ih h

theorem load_fold_keysOf (filenames : List Item) :
    ∀ (lines : List Line) (t t' : Table ℚ), (∀ x ∈ filenames, x ∈ keysOf t) →
      load_fold filenames t lines = some t' → keysOf t' = keysOf t := by
  intro lines
  induction lines with
  | nil =>
    intro t t' _ h
    simp only [load_fold, Option.some.injEq] at h
    rw [h]
  | cons line rest ih =>
    intro t t' hsub h
    rcases hsplit : splitOnCh ':' (strip line) with _ | ⟨n, _ | ⟨s, _ | ⟨u, us⟩⟩⟩ <;>
      simp only [load_fold, hsplit] at h
    · exact absurd h (by simp)
    · exact absurd h (by simp)
    · by_cases hmem : n ∈ filenames
      · rw [if_pos hmem] at h
        rcases hp : parseFloat s with _ | v
        · rw [hp] at h
          exact absurd h (by simp)
        · rw [hp] at h
          have hkeys : keysOf (setVal t n v) = keysOf t :=
            keysOf_setVal_mem t n v (hsub n hmem)
          have hsub' : ∀ x ∈ filenames, x ∈ keysOf (setVal t n v) := by
            intro x hx
            rw [hkeys]
            exact hsub x hx
          rw [ih (setVal t n v) t' hsub' h, hkeys]
      · rw [if_neg hmem] at h
        exact ih t t' hsub h
    · exact absurd h (by simp)

/-- The parsed scores that the load loop would assign to key `k`, in
file order: one entry per line that splits into exactly `k` and a
parseable score. -/
def assignments (k : Item) (lines : List Line) : List ℚ :=
  lines.filterMap fun line =>
    match splitOnCh ':' (strip line) with
    | [name, score] => if name = k then parseFloat score else none
    | _ => none

/-- The last element of `l`, or `d` when `l` is empty. -/
def lastOr (l : List ℚ) (d : Option ℚ) : Option ℚ :=
  match l with
  | [] => d
  | v :: vs => lastOr vs (some v)

theorem lastOr_eq_getLast? (l : List ℚ) (d : Option ℚ) (h : l ≠ []) :
    lastOr l d = l.getLast? := by
  induction l generalizing d with
  | nil => exact absurd rfl h
  | cons v vs ih =>
    rcases vs with _ | ⟨w, ws⟩
    · simp [lastOr]
    · rw [lastOr, ih (some v) (by simp), List.getLast?_cons_cons]

theorem assignments_cons_hit (k : Item) (line : Line) (rest : List Line)
    (s : List Char) (v : ℚ) (hsplit : splitOnCh ':' (strip line) = [k, s])
    (hp : parseFloat s = some v) :
    assignments k (line :: rest) = v :: assignments k rest := by
  simp [assignments, List.filterMap_cons, hsplit, hp]

theorem assignments_cons_miss (k : Item) (line : Line) (rest : List Line)
    (n s : List Char) (hsplit : splitOnCh ':' (strip line) = [n, s])
    (hnk : n ≠ k) :
    assignments k (line :: rest) = assignments k rest := by
  simp only [assignments, List.filterMap_cons, hsplit, if_neg hnk]

theorem load_fold_lookup (filenames : List Item) (k : Item) (hk : k ∈ filenames) :
    ∀ (lines : List Line) (t t' : Table ℚ),
      load_fold filenames t lines = some t' →
      lookupVal t' k = lastOr (assignments k lines) (lookupVal t k) := by
  intro lines
  induction lines with
  | nil =>
    intro t t' h
    simp only [load_fold, Option.some.injEq] at h
    rw [← h]
    rfl
  | cons line rest ih =>
    intro t t' h
    rcases hsplit : splitOnCh ':' (strip line) with _ | ⟨n, _ | ⟨s, _ | ⟨u, us⟩⟩⟩ <;>
      simp only [load_fold, hsplit] at h
    · exact absurd h (by simp)
    · exact absurd h (by simp)
    · by_cases hnk : n = k
      · subst hnk
        rw [if_pos hk] at h
        rcases hp : parseFloat s with _ | v
        · rw [hp] at h
          exact absurd h (by simp)
        · rw [hp] at h
          rw [assignments_cons_hit n line rest s v hsplit hp]
          rw [ih (setVal t n v) t' h, lookupVal_setVal_self]
          rfl
      · rw [assignments_cons_miss k line rest n s hsplit hnk]
        by_cases hmem : n ∈ filenames
        · rw [if_pos hmem] at h
          rcases hp : parseFloat s with _ | v
          · rw [hp] at h
            exact absurd h (by simp)
          · rw [hp] at h
            rw [ih (setVal t n v) t' h,
              lookupVal_setVal_ne t n k v (fun hh => hnk hh.symm)]
        · rw [if_neg hmem] at h
          exact ih t t' h
    · exact absurd h (by simp)

/-- C2: for every catalog and every score file, whenever the load
completes it returns a table whose key set is exactly the catalog
(stale entries are discarded because assignments only overwrite
existing keys), and every catalog item no line mentions keeps the
default score 1000. -/
theorem c2_load_reconciliation (filenames : List Item) (file : Option (List Line))
    (t : Table ℚ) (h : get_rankings filenames file = some t) :
    keysOf t = filenames ∧
    ∀ k, k ∈ filenames →
      (∀ line ∈ file.getD [], ∀ s, splitOnCh ':' (strip line) ≠ [k, s]) →
      lookupVal t k = some 1000 := by
  rcases file with _ | lines
  · simp only [get_rankings, Option.some.injEq] at h
    rw [← h]
    refine ⟨keysOf_init_table filenames, ?_⟩
    intro k hk _
    exact lookupVal_init_table filenames k hk
  · simp only [get_rankings] at h
    constructor
    · have hsub : ∀ x ∈ filenames, x ∈ keysOf (init_table filenames) := by
        intro x hx
        rw [keysOf_init_table]
        exact hx
      rw [load_fold_keysOf filenames lines _ t hsub h, keysOf_init_table]
    · intro k hk hnl
      have hlast := load_fold_lookup filenames k hk lines _ t h
      have hempty : assignments k lines = [] := by
        rw [assignments, List.filterMap_eq_nil_iff]
        intro line hline
        rcases hsplit : splitOnCh ':' (strip line) with _ | ⟨n, _ | ⟨s, _ | ⟨u, us⟩⟩⟩ <;>
          simp only [hsplit]
        · by_cases hnk : n = k
          · exact absurd (hnk ▸ hsplit) (hnl line hline s)
          · simp [hnk]
      rw [hlast, hempty, lastOr, lookupVal_init_table filenames k hk]
      rfl

/-- Witness for C2 at a two-item catalog: a stale entry is pruned, an
unmentioned item keeps the default score. -/
theorem c2_witness :
    keysOf [((['a'] : Item), (1000 : ℚ)), (['b'], 5)] = [['a'], ['b']] ∧
    ∀ k, k ∈ ([['a'], ['b']] : List Item) →
      (∀ line ∈ (some [[('b' : Char), ':', '5'], ['c', ':', '1']] :
          Option (List Line)).getD [],
        ∀ s, splitOnCh ':' (strip line) ≠ [k, s]) →
      lookupVal [((['a'] : Item), (1000 : ℚ)), (['b'], 5)] k = some 1000 :=
  c2_load_reconciliation [['a'], ['b']] (some [['b', ':', '5'], ['c', ':', '1']]) _
    (by with_unfolding_all decide)

/-- C3 counterexample: a file whose first line is malformed (no colon)
makes the whole load abort with an uncaught `ValueError` (modelled as
`none`) instead of skipping that line and succeeding. -/
theorem c3_counterexample :
    get_rankings [['a']] (some [['g'], ['a', ':', '5']]) = none := by decide

/-- C3 amended: a line with the wrong field count always aborts the
whole load; a line with a non-numeric score aborts the load when its
item is in the catalog; only a two-field line whose item is outside
the catalog is skipped with the load continuing. -/
theorem c3_amended :
    (∀ (filenames : List Item) (t : Table ℚ) (pre post : List Line) (bad : Line),
      (splitOnCh ':' (strip bad)).length ≠ 2 →
      load_fold filenames t (pre ++ bad :: post) = none) ∧
    (∀ (filenames : List Item) (t : Table ℚ) (pre post : List Line) (bad : Line)
      (n s : List Char), splitOnCh ':' (strip bad) = [n, s] → n ∈ filenames →
      parseFloat s = none → load_fold filenames t (pre ++ bad :: post) = none) ∧
    (∀ (filenames : List Item) (t : Table ℚ) (post : List Line) (bad : Line)
      (n s : List Char), splitOnCh ':' (strip bad) = [n, s] → n ∉ filenames →
      load_fold filenames t (bad :: post) = load_fold filenames t post) := by
  refine ⟨?_, ?_, ?_⟩
  · intro filenames t pre post bad hbad
    rw [load_fold_append]
    rcases hpre : load_fold filenames t pre with _ | t2
    · rfl
    · simp only [Option.some_bind]
      exact load_fold_malformed filenames t2 bad post hbad
  · intro filenames t pre post bad n s hsplit hmem hp
    rw [load_fold_append]
    rcases hpre : load_fold filenames t pre with _ | t2
    · rfl
    · simp only [Option.some_bind]
      exact load_fold_badscore filenames t2 bad post n s hsplit hmem hp
  · intro filenames t post bad n s hsplit hmem
    exact load_fold_skip filenames t bad post n s hsplit hmem

/-- Witness for C3 amended at concrete one-item catalogs. -/
theorem c3_amended_witness :
    load_fold [['a']] (init_table [['a']]) ([] ++ ['g'] :: []) = none ∧
    load_fold [['a']] (init_table [['a']]) ([] ++ ['a', ':', 'x'] :: []) = none ∧
    load_fold [['b']] (init_table [['b']]) (['a', ':', 'x'] :: []) =
      load_fold [['b']] (init_table [['b']]) [] :=
  ⟨c3_amended.1 [['a']] (init_table [['a']]) [] [] ['g'] (by decide),
   c3_amended.2.1 [['a']] (init_table [['a']]) [] [] ['a', ':', 'x'] ['a'] ['x']
     (by decide) (by decide) (by decide),
   c3_amended.2.2 [['b']] (init_table [['b']]) [] ['a', ':', 'x'] ['a'] ['x']
     (by decide) (by decide)⟩

/-- C10: when the same catalog key appears on more than one well-formed
line and the load completes, the returned score for that key is the one
of the last such line (later assignments overwrite earlier ones). -/
theorem c10_last_line_wins (filenames : List Item) (lines : List Line)
    (t : Table ℚ) (k : Item) (h : get_rankings filenames (some lines) = some t)
    (hk : k ∈ filenames) (hne : assignments k lines ≠ []) :
    lookupVal t k = (assignments k lines).getLast? := by
  simp only [get_rankings] at h
  have hl := load_fold_lookup filenames k hk lines (init_table filenames) t h
  rw [hl, lastOr_eq_getLast? _ _ hne]

/-- Witness for C10: the key appears on two lines, the later value 2
wins. -/
theorem c10_witness :
    lookupVal [((['a'] : Item), (2 : ℚ))] ['a']
      = (assignments ['a'] [['a', ':', '1'], ['a', ':', '2']]).getLast? :=
  c10_last_line_wins [['a']] [['a', ':', '1'], ['a', ':', '2']] _ ['a']
    (by with_unfolding_all decide) (by decide) (by with_unfolding_all decide)

/-- The little-endian decimal digits of a natural number (empty for 0). -/
def natDigitsRev : ℕ → List ℕ
  | 0 => []
  | n + 1 => ((n + 1) % 10) :: natDigitsRev ((n + 1) / 10)
decreasing_by exact Nat.div_lt_self (Nat.succ_pos n) (by norm_num)

/-- The character of a decimal digit. -/
def digitChar (d : ℕ) : Char := Char.ofNat (48 + d)

/-- The decimal numeral of a natural number. -/
def natRepr (n : ℕ) : List Char :=
  if n = 0 then ['0'] else ((natDigitsRev n).reverse).map digitChar

/-- The least `k ≤ d` with `d ∣ 10^k`, when one exists: the number of
decimal digits needed to express `1/d` exactly. -/
def decExp (d : ℕ) : Option ℕ :=
  (List.range (d + 1)).find? fun k => decide (d ∣ 10 ^ k)

/-- Exactly `k` fractional digits for the remainder `r < 10^k`,
zero-padded on the left. -/
def fracDigits (k r : ℕ) : List Char :=
  ((natDigitsRev r ++ List.replicate (k - (natDigitsRev r).length) 0).reverse).map
    digitChar

/-- Rendering of a score, as Python's `str(float)` produces on the
decimal fragment: optional sign, integer digits, a dot, and at least
one fractional digit.  Every IEEE float is a rational whose
denominator divides a power of ten, and Python's `str`/`float`
round-trip on floats is exact, which this exact decimal rendering
mirrors; a denominator with another prime factor (unreachable from
floats) falls back to a `num/den` form. -/
def renderScore (q : ℚ) : List Char :=
  match decExp q.den with
  | some k =>
    let k1 := max k 1
    let m := q.num.natAbs * 10 ^ k1 / q.den
    (if q < 0 then ['-'] else []) ++
      natRepr (m / 10 ^ k1) ++ '.' :: fracDigits k1 (m % 10 ^ k1)
  | none =>
    (if q < 0 then ['-'] else []) ++ natRepr q.num.natAbs ++ '/' :: natRepr q.den

/-- One output line `f"{filename}:{ranking}"` of `save_rankings`. -/
def render_line (e : Item × ℚ) : Line :=
  e.1 ++ ':' :: renderScore e.2

/-- Stable insertion for descending-score order: walk past entries
with strictly greater score, insert before the first whose score is
not greater — entries with equal score keep their original relative
order, exactly like Python's stable `sorted(..., reverse=True)`. -/
def insertDesc (x : Item × ℚ) : List (Item × ℚ) → List (Item × ℚ)
  | [] => [x]
  | y :: ys => if x.2 < y.2 then y :: insertDesc x ys else x :: y :: ys

/-- Model of `sorted(rankings.items(), key=lambda x: x[1], reverse=True)`:
the score is the only sort key. -/
def sortDesc (l : List (Item × ℚ)) : List (Item × ℚ) :=
  l.foldr insertDesc []

/-- RANKINGS_FILE constant of the source. -/
def RANKINGS_FILE : List Char :=
  ['r', 'a', 'n', 'k', 'i', 'n', 'g', 's', '.', 't', 'x', 't']

/-- The lines `save_rankings` writes, in order. -/
def save_lines (rankings : Table ℚ) : List Line :=
  (sortDesc rankings).map render_line

/-- File-system operations visible in a save: a truncating open, a
line written to a path, and an atomic rename. -/
inductive FsOp : Type
  | openTrunc (path : List Char)
  | writeLine (path : List Char) (line : Line)
  | rename (src dst : List Char)
deriving DecidableEq

/-- True exactly on rename operations. -/
def FsOp.isRename : FsOp → Bool
  | .rename _ _ => true
  | _ => false

/-- The operation trace of `save_rankings(rankings)`:
`open(RANKINGS_FILE, "w")` truncates the destination in place, then
every entry is written directly to it.  No temporary file and no
rename appear anywhere in the function. -/
def save_rankings (rankings : Table ℚ) : List FsOp :=
  FsOp.openTrunc RANKINGS_FILE ::
    (save_lines rankings).map (FsOp.writeLine RANKINGS_FILE)

/-- A file system: the association of existing paths to line lists. -/
abbrev FileSys := List (List Char × List Line)

/-- Removal of a path (used by rename). -/
def removeKey {α : Type} (t : Table α) (k : Item) : Table α :=
  t.filter fun p => decide (p.1 ≠ k)

/-- Effect of one operation on the file system. -/
def applyOp (fs : FileSys) : FsOp → FileSys
  | .openTrunc p => setVal fs p []
  | .writeLine p l =>
    match lookupVal fs p with
    | some c => setVal fs p (c ++ [l])
    | none => fs
  | .rename src dst =>
    match lookupVal fs src with
    | some c => setVal (removeKey fs src) dst c
    | none => fs

/-- Replay of an operation trace against a file system. -/
def runOps (fs : FileSys) : List FsOp → FileSys
  | [] => fs
  | op :: rest => runOps (applyOp fs op) rest

theorem runOps_writes (path : List Char) :
    ∀ (lines : List Line) (fs : FileSys) (c : List Line),
      lookupVal fs path = some c →
      lookupVal (runOps fs (lines.map (FsOp.writeLine path))) path
        = some (c ++ lines) := by
  intro lines
  induction lines with
  | nil =>
    intro fs c h
    simpa [runOps] using h
  | cons l rest ih =>
    intro fs c h
    simp only [List.map_cons, runOps, applyOp, h]
    rw [ih (setVal fs path (c ++ [l])) (c ++ [l]) (lookupVal_setVal_self fs path _)]
    simp

/-- C5 counterexample: saving a one-entry table over an existing
snapshot performs no rename anywhere in its trace, and already after
its first operation the destination is truncated to empty — a state
that is neither the previous snapshot nor the final content — so the
claimed write-to-temporary-then-rename discipline is absent. -/
theorem c5_counterexample :
    (save_rankings [(['a'], (1000 : ℚ))]).all (fun op => !op.isRename) = true ∧
    lookupVal (runOps [(RANKINGS_FILE, [['o', 'l', 'd']])]
        ((save_rankings [(['a'], (1000 : ℚ))]).take 1)) RANKINGS_FILE = some [] ∧
    some ([] : List Line) ≠ some [['o', 'l', 'd']] ∧
    lookupVal (runOps [(RANKINGS_FILE, [['o', 'l', 'd']])]
        (save_rankings [(['a'], (1000 : ℚ))])) RANKINGS_FILE
      ≠ some [['o', 'l', 'd']] := by
  with_unfolding_all decide

/-- C5 amended: `save_rankings` overwrites the destination in place:
its trace contains no rename (and no temporary file), its first
operation truncates the destination to empty, and only the complete
trace leaves the rendered table as the file content — an interruption
mid-write exposes a partial file to subsequent loads. -/
theorem c5_amended (rankings : Table ℚ) (fs : FileSys) :
    lookupVal (runOps fs (save_rankings rankings)) RANKINGS_FILE
      = some (save_lines rankings) ∧
    lookupVal (runOps fs ((save_rankings rankings).take 1)) RANKINGS_FILE
      = some [] ∧
    (save_rankings rankings).all (fun op => !op.isRename) = true := by
  refine ⟨?_, ?_, ?_⟩
  · simp only [save_rankings, runOps, applyOp]
    rw [runOps_writes RANKINGS_FILE (save_lines rankings) _ []
      (lookupVal_setVal_self fs RANKINGS_FILE [])]
    simp
  · simp only [save_rankings, List.take_succ_cons, List.take_zero]
    simp [runOps, applyOp, lookupVal_setVal_self]
  · rw [List.all_eq_true]
    intro op hop
    rcases List.mem_cons.mp hop with h | h
    · rw [h]
      rfl
    · rcases List.mem_map.mp h with ⟨l, _, rfl⟩
      rfl

/-- Lexicographic strict order on keys, the "Item key ascending" of
the spec. -/
def lexLtKey : List Char → List Char → Bool
  | [], [] => false
  | [], _ :: _ => true
  | _ :: _, [] => false
  | a :: as, b :: bs => if a < b then true else if b < a then false else lexLtKey as bs

/-- Modelled from the spec: insertion for the ordering the spec words
describe — score descending with ties broken by item key ascending —
kept for comparison with the implementation's ordering. -/
def insertSpec (x : Item × ℚ) : List (Item × ℚ) → List (Item × ℚ)
  | [] => [x]
  | y :: ys =>
    if x.2 < y.2 ∨ (x.2 = y.2 ∧ lexLtKey y.1 x.1 = true) then y :: insertSpec x ys
    else x :: y :: ys

/-- Modelled from the spec: the order the spec claims `save` writes. -/
def sortSpec (l : List (Item × ℚ)) : List (Item × ℚ) :=
  l.foldr insertSpec []

/-- C6 counterexample: two equal-score entries whose table order is
`b` before `a`.  The spec's order would write `a` first (key
ascending); `save_rankings` writes `b` first, because `sorted` is
called with the score as the only key and Python's stable sort keeps
ties in table order. -/
theorem c6_counterexample :
    save_lines [(['b'], (1000 : ℚ)), (['a'], (1000 : ℚ))]
      ≠ (sortSpec [(['b'], (1000 : ℚ)), (['a'], (1000 : ℚ))]).map render_line := by
  with_unfolding_all decide

theorem insertDesc_perm (x : Item × ℚ) (l : List (Item × ℚ)) :
    List.Perm (insertDesc x l) (x :: l) := by
  induction l with
  | nil => exact List.Perm.refl _
  | cons y ys ih =>
    by_cases h : x.2 < y.2
    · simp only [insertDesc, if_pos h]
      exact (List.Perm.cons y ih).trans (List.Perm.swap x y ys)
    · simp only [insertDesc, if_neg h]
      exact List.Perm.refl _

theorem sortDesc_perm (l : List (Item × ℚ)) : List.Perm (sortDesc l) l := by
  induction l with
  | nil => exact List.Perm.refl _
  | cons x xs ih =>
    exact (insertDesc_perm x (sortDesc xs)).trans (List.Perm.cons x ih)

theorem insertDesc_sorted (x : Item × ℚ) (l : List (Item × ℚ))
    (hl : l.Pairwise fun p q => q.2 ≤ p.2) :
    (insertDesc x l).Pairwise fun p q => q.2 ≤ p.2 := by
  induction l with
  | nil => simp [insertDesc]
  | cons y ys ih =>
    rcases List.pairwise_cons.mp hl with ⟨hy, hys⟩
    by_cases h : x.2 < y.2
    · simp only [insertDesc, if_pos h]
      rw [List.pairwise_cons]
      refine ⟨?_, ih hys⟩
      intro z hz
      rcases List.mem_cons.mp ((List.Perm.mem_iff (insertDesc_perm x ys)).mp hz)
        with rfl | hmem
      · exact le_of_lt h
      · exact hy z hmem
    · simp only [insertDesc, if_neg h]
      rw [List.pairwise_cons]
      constructor
      · intro z hz
        rcases List.mem_cons.mp hz with rfl | hmem
        · exact le_of_not_lt h
        · exact le_trans (hy z hmem) (le_of_not_lt h)
      · exact hl

theorem sortDesc_sorted (l : List (Item × ℚ)) :
    (sortDesc l).Pairwise fun p q => q.2 ≤ p.2 := by
  induction l with
  | nil => simp [sortDesc]
  | cons x xs ih => exact insertDesc_sorted x (sortDesc xs) ih

theorem insertDesc_filter_eq (x : Item × ℚ) (l : List (Item × ℚ)) (s : ℚ)
    (hx : x.2 = s) :
    (insertDesc x l).filter (fun p => decide (p.2 = s))
      = x :: l.filter (fun p => decide (p.2 = s)) := by
  induction l with
  | nil => simp [insertDesc, hx]
  | cons y ys ih =>
    by_cases h : x.2 < y.2
    · have hy : ¬(y.2 = s) := by
        intro hys
        rw [hx, hys] at h
        exact lt_irrefl s h
      simp only [insertDesc, if_pos h, List.filter_cons]
      simp [hy, ih]
    · simp only [insertDesc, if_neg h, List.filter_cons]
      simp [hx]

theorem insertDesc_filter_ne (x : Item × ℚ) (l : List (Item × ℚ)) (s : ℚ)
    (hx : x.2 ≠ s) :
    (insertDesc x l).filter (fun p => decide (p.2 = s))
      = l.filter (fun p => decide (p.2 = s)) := by
  induction l with
  | nil => simp [insertDesc, hx]
  | cons y ys ih =>
    by_cases h : x.2 < y.2
    · simp only [insertDesc, if_pos h, List.filter_cons]
      simp [ih]
    · simp only [insertDesc, if_neg h, List.filter_cons]
      simp [hx]

theorem sortDesc_stable (l : List (Item × ℚ)) (s : ℚ) :
    (sortDesc l).filter (fun p => decide (p.2 = s))
      = l.filter (fun p => decide (p.2 = s)) := by
  induction l with
  | nil => rfl
  | cons x xs ih =>
    by_cases hx : x.2 = s
    · rw [show sortDesc (x :: xs) = insertDesc x (sortDesc xs) from rfl,
        insertDesc_filter_eq x (sortDesc xs) s hx, ih, List.filter_cons]
      simp [hx]
    · rw [show sortDesc (x :: xs) = insertDesc x (sortDesc xs) from rfl,
        insertDesc_filter_ne x (sortDesc xs) s hx, ih, List.filter_cons]
      simp [hx]

/-- C6 amended: `save_rankings` writes one `Item:Score` line per
entry, the entries being a permutation of the table sorted by score
descending — but with no key tie-break: `sorted` receives the score as
its only key, so entries of equal score keep the table's own insertion
order (the stable-sort filter identity below), not key-ascending
order. -/
theorem c6_amended (rankings : Table ℚ) :
    save_lines rankings = (sortDesc rankings).map render_line ∧
    List.Perm (sortDesc rankings) rankings ∧
    (sortDesc rankings).Pairwise (fun p q => q.2 ≤ p.2) ∧
    ∀ s : ℚ, (sortDesc rankings).filter (fun p => decide (p.2 = s))
      = rankings.filter (fun p => decide (p.2 = s)) :=
  ⟨rfl, sortDesc_perm rankings, sortDesc_sorted rankings,
    sortDesc_stable rankings⟩

/-- Value of a little-endian digit list. -/
def valLE : List ℕ → ℕ
  | [] => 0
  | d :: ds => d + 10 * valLE ds

/-- Value accumulated big-endian, as a parser reads digits. -/
def valBE (l : List ℕ) : ℕ :=
  l.foldl (fun a d => a * 10 + d) 0

theorem natDigitsRev_lt (n : ℕ) : ∀ d ∈ natDigitsRev n, d < 10 := by
  induction n using Nat.strong_induction_on with
  | _ n ih =>
    rcases n with _ | m
    · simp [natDigitsRev]
    · intro d hd
      simp only [natDigitsRev] at hd
      rcases List.mem_cons.mp hd with rfl | hmem
      · exact Nat.mod_lt _ (by norm_num)
      · exact ih ((m + 1) / 10) (Nat.div_lt_self (Nat.succ_pos m) (by norm_num)) d hmem

theorem valLE_natDigitsRev (n : ℕ) : valLE (natDigitsRev n) = n := by
  induction n using Nat.strong_induction_on with
  | _ n ih =>
    rcases n with _ | m
    · simp [natDigitsRev, valLE]
    · simp only [natDigitsRev, valLE]
      rw [ih ((m + 1) / 10) (Nat.div_lt_self (Nat.succ_pos m) (by norm_num))]
      exact Nat.mod_add_div (m + 1) 10

theorem length_natDigitsRev_le (k : ℕ) :
    ∀ n : ℕ, n < 10 ^ k → (natDigitsRev n).length ≤ k := by
  induction k with
  | zero =>
    intro n hn
    have hn0 : n = 0 := by simpa using hn
    subst hn0
    simp [natDigitsRev]
  | succ k ih =>
    intro n hn
    rcases n with _ | m
    · simp [natDigitsRev]
    · simp only [natDigitsRev, List.length_cons]
      have h1 : (m + 1) / 10 < 10 ^ k := by
        apply Nat.div_lt_of_lt_mul
        rw [pow_succ, mul_comm] at hn
        exact hn
      exact Nat.succ_le_succ (ih _ h1)

theorem foldl_mul_add (l : List ℕ) :
    ∀ a : ℕ, l.foldl (fun x d => x * 10 + d) a = a * 10 ^ l.length + valBE l := by
  induction l with
  | nil => intro a; simp [valBE]
  | cons d ds ih =>
    intro a
    have h2 : valBE (d :: ds) = d * 10 ^ ds.length + valBE ds := by
      simp only [valBE, List.foldl_cons]
      rw [show (0 * 10 + d) = d by ring, ih d]
      rfl
    simp only [List.foldl_cons, List.length_cons]
    rw [ih (a * 10 + d), h2]
    ring

theorem valBE_reverse (l : List ℕ) : valBE l.reverse = valLE l := by
  induction l with
  | nil => rfl
  | cons d ds ih =>
    simp only [List.reverse_cons, valBE, List.foldl_append, List.foldl_cons,
      List.foldl_nil, valLE]
    simp only [valBE] at ih
    rw [ih]
    ring

theorem valLE_append (a b : List ℕ) :
    valLE (a ++ b) = valLE a + 10 ^ a.length * valLE b := by
  induction a with
  | nil => simp [valLE]
  | cons d ds ih =>
    rw [List.cons_append]
    simp only [valLE]
    rw [ih, List.length_cons]
    ring

theorem valLE_replicate_zero (m : ℕ) : valLE (List.replicate m 0) = 0 := by
  induction m with
  | zero => rfl
  | succ m ih => simp [List.replicate_succ, valLE, ih]

theorem digitVal?_digitChar (d : ℕ) (hd : d < 10) :
    digitVal? (digitChar d) = some d := by
  interval_cases d <;> decide

theorem foldl_digits (l : List ℕ) :
    ∀ a : ℕ, (∀ d ∈ l, d < 10) →
      (l.map digitChar).foldl (fun x c => x * 10 + (digitVal? c).getD 0) a
        = l.foldl (fun x d => x * 10 + d) a := by
  induction l with
  | nil => intro a _; rfl
  | cons d ds ih =>
    intro a hl
    simp only [List.map_cons, List.foldl_cons]
    rw [digitVal?_digitChar d (hl d (List.mem_cons_self d ds))]
    simp only [Option.getD_some]
    exact ih (a * 10 + d) fun x hx => hl x (List.mem_cons_of_mem d hx)

theorem digitsToNat_map_digitChar (l : List ℕ) (hl : ∀ d ∈ l, d < 10) :
    digitsToNat (l.map digitChar) = valBE l :=
  foldl_digits l 0 hl

theorem digitsToNat_natRepr (n : ℕ) : digitsToNat (natRepr n) = n := by
  by_cases h : n = 0
  · subst h
    decide
  · rw [natRepr, if_neg h,
      digitsToNat_map_digitChar _ (fun d hd => natDigitsRev_lt n d (List.mem_reverse.mp hd)),
      valBE_reverse, valLE_natDigitsRev]

theorem natRepr_ne_nil (n : ℕ) : natRepr n ≠ [] := by
  by_cases h : n = 0
  · subst h
    simp [natRepr]
  · rw [natRepr, if_neg h]
    intro hc
    rw [List.map_eq_nil_iff, List.reverse_eq_nil_iff] at hc
    exact h (by rw [← valLE_natDigitsRev n, hc]; rfl)

theorem natRepr_digits (n : ℕ) :
    ∀ c ∈ natRepr n, ∃ d, d < 10 ∧ c = digitChar d := by
  by_cases h : n = 0
  · subst h
    intro c hc
    have hc0 : c = '0' := by simpa [natRepr] using hc
    exact ⟨0, by norm_num, by rw [hc0]; decide⟩
  · rw [natRepr, if_neg h]
    intro c hc
    rcases List.mem_map.mp hc with ⟨d, hd, rfl⟩
    exact ⟨d, natDigitsRev_lt n d (List.mem_reverse.mp hd), rfl⟩

theorem fracDigits_length (k r : ℕ) (hr : r < 10 ^ k) :
    (fracDigits k r).length = k := by
  have hlen := length_natDigitsRev_le k r hr
  simp only [fracDigits, List.length_map, List.length_reverse, List.length_append,
    List.length_replicate]
  omega

theorem fracDigits_digits (k r : ℕ) :
    ∀ c ∈ fracDigits k r, ∃ d, d < 10 ∧ c = digitChar d := by
  intro c hc
  rcases List.mem_map.mp hc with ⟨d, hd, rfl⟩
  rw [List.mem_reverse] at hd
  rcases List.mem_append.mp hd with hd | hd
  · exact ⟨d, natDigitsRev_lt r d hd, rfl⟩
  · exact ⟨d, by rw [List.eq_of_mem_replicate hd]; norm_num, rfl⟩

theorem digitsToNat_fracDigits (k r : ℕ) :
    digitsToNat (fracDigits k r) = r := by
  rw [fracDigits, digitsToNat_map_digitChar]
  · rw [valBE_reverse, valLE_append, valLE_replicate_zero, valLE_natDigitsRev]
    ring
  · intro d hd
    rw [List.mem_reverse] at hd
    rcases List.mem_append.mp hd with hd | hd
    · exact natDigitsRev_lt r d hd
    · rw [List.eq_of_mem_replicate hd]
      norm_num

theorem takeWhile_all_append (p : Char → Bool) (a : List Char) (b : Char)
    (r : List Char) (ha : ∀ c ∈ a, p c = true) (hb : p b = false) :
    (a ++ b :: r).takeWhile p = a := by
  induction a with
  | nil =>
    rw [List.nil_append, List.takeWhile_cons_of_neg (by simp [hb])]
  | cons x xs ih =>
    rw [List.cons_append, List.takeWhile_cons_of_pos (ha x (List.mem_cons_self x xs)),
      ih fun c hc => ha c (List.mem_cons_of_mem x hc)]

theorem dropWhile_all_append (p : Char → Bool) (a : List Char) (b : Char)
    (r : List Char) (ha : ∀ c ∈ a, p c = true) (hb : p b = false) :
    (a ++ b :: r).dropWhile p = b :: r := by
  induction a with
  | nil =>
    rw [List.nil_append, List.dropWhile_cons_of_neg (by simp [hb])]
  | cons x xs ih =>
    rw [List.cons_append, List.dropWhile_cons_of_pos (ha x (List.mem_cons_self x xs))]
    exact ih fun c hc => ha c (List.mem_cons_of_mem x hc)

theorem dropWhile_eq_self_of_all (p : Char → Bool) (l : List Char)
    (h : ∀ c ∈ l, p c = false) : l.dropWhile p = l := by
  rcases l with _ | ⟨x, xs⟩
  · rfl
  · rw [List.dropWhile_cons_of_neg (by simp [h x (List.mem_cons_self x xs)])]

theorem strip_eq_self (cs : List Char) (h : ∀ c ∈ cs, isPySpace c = false) :
    strip cs = cs := by
  rw [strip, dropWhile_eq_self_of_all _ _ h,
    dropWhile_eq_self_of_all _ _ (fun c hc => h c (List.mem_reverse.mp hc)),
    List.reverse_reverse]

theorem splitOnCh_no_sep (sep : Char) (a : List Char)
    (ha : ∀ c ∈ a, c ≠ sep) : splitOnCh sep a = [a] := by
  induction a with
  | nil => rfl
  | cons x xs ih =>
    simp only [splitOnCh]
    rw [if_neg (ha x (List.mem_cons_self x xs)),
      ih fun c hc => ha c (List.mem_cons_of_mem x hc)]

theorem splitOnCh_append (sep : Char) (a b : List Char)
    (ha : ∀ c ∈ a, c ≠ sep) :
    splitOnCh sep (a ++ sep :: b) = a :: splitOnCh sep b := by
  induction a with
  | nil =>
    simp [splitOnCh]
  | cons x xs ih =>
    simp only [List.cons_append, splitOnCh, List.append_eq]
    rw [if_neg (ha x (List.mem_cons_self x xs)),
      ih fun c hc => ha c (List.mem_cons_of_mem x hc)]

theorem decExp_dvd (d k : ℕ) (h : decExp d = some k) : d ∣ 10 ^ k := by
  rw [decExp] at h
  have h2 := List.find?_some h
  simp only [decide_eq_true_eq] at h2
  exact h2

theorem dvd_ten_pow_self (d e : ℕ) (hd : 0 < d) (h : d ∣ 10 ^ e) :
    d ∣ 10 ^ d := by
  have h2 : d ∣ 2 ^ e * 5 ^ e := by
    rw [← mul_pow]
    norm_num
    exact h
  rcases Nat.dvd_mul.mp h2 with ⟨d2, d5, h2', h5', hprod⟩
  rcases (Nat.dvd_prime_pow Nat.prime_two).mp h2' with ⟨a, _, rfl⟩
  rcases (Nat.dvd_prime_pow Nat.prime_five).mp h5' with ⟨b, _, rfl⟩
  subst hprod
  have hb5 : b < 5 ^ b :=
    lt_of_lt_of_le (Nat.lt_two_pow b) (Nat.pow_le_pow_left (by norm_num) b)
  have ha2 : a ≤ 2 ^ a * 5 ^ b :=
    le_trans (le_of_lt (Nat.lt_two_pow a))
      (Nat.le_mul_of_pos_right _ (pow_pos (by norm_num) b))
  have hb2 : b ≤ 2 ^ a * 5 ^ b :=
    le_trans (le_of_lt hb5) (Nat.le_mul_of_pos_left _ (pow_pos (by norm_num) a))
  have hdvd : (2 : ℕ) ^ a * 5 ^ b ∣ 2 ^ (2 ^ a * 5 ^ b) * 5 ^ (2 ^ a * 5 ^ b) :=
    mul_dvd_mul (pow_dvd_pow 2 ha2) (pow_dvd_pow 5 hb2)
  calc (2 : ℕ) ^ a * 5 ^ b
      ∣ 2 ^ (2 ^ a * 5 ^ b) * 5 ^ (2 ^ a * 5 ^ b) := hdvd
    _ = 10 ^ (2 ^ a * 5 ^ b) := by
      rw [← mul_pow]
      norm_num

theorem decExp_isSome (d e : ℕ) (hd : 0 < d) (h : d ∣ 10 ^ e) :
    ∃ k, decExp d = some k := by
  rcases hfind : decExp d with _ | k
  · exfalso
    have hall := List.find?_eq_none.mp hfind
    have hd10 : d ∣ 10 ^ d := dvd_ten_pow_self d e hd h
    have hmem : d ∈ List.range (d + 1) := List.mem_range.mpr (Nat.lt_succ_self d)
    have := hall d hmem
    simp only [decide_eq_true_eq] at this
    exact this hd10
  · exact ⟨k, rfl⟩

theorem isEmpty_false_of_ne_nil {l : List Char} (h : l ≠ []) :
    l.isEmpty = false := by
  rcases l with _ | ⟨x, xs⟩
  · exact absurd rfl h
  · rfl

theorem parseUnsigned_render (m k1 : ℕ) :
    parseUnsigned (natRepr (m / 10 ^ k1) ++ '.' :: fracDigits k1 (m % 10 ^ k1))
      = some ((m : ℚ) / 10 ^ k1) := by
  have hpow : (0 : ℕ) < 10 ^ k1 := pow_pos (by norm_num) _
  have hmod : m % 10 ^ k1 < 10 ^ k1 := Nat.mod_lt _ hpow
  have hdigI : ∀ c ∈ natRepr (m / 10 ^ k1), ((digitVal? c).isSome = true) := by
    intro c hc
    rcases natRepr_digits _ c hc with ⟨d, hd, rfl⟩
    rw [digitVal?_digitChar d hd]
    rfl
  have hdigF : ∀ c ∈ fracDigits k1 (m % 10 ^ k1), ((digitVal? c).isSome = true) := by
    intro c hc
    rcases fracDigits_digits _ _ c hc with ⟨d, hd, rfl⟩
    rw [digitVal?_digitChar d hd]
    rfl
  have hdot : ((digitVal? '.').isSome = false) := by decide
  have hall : (fracDigits k1 (m % 10 ^ k1)).all (fun x => (digitVal? x).isSome) = true :=
    List.all_eq_true.mpr hdigF
  have hne : (natRepr (m / 10 ^ k1)).isEmpty = false :=
    isEmpty_false_of_ne_nil (natRepr_ne_nil _)
  rw [parseUnsigned, takeWhile_all_append _ _ _ _ hdigI hdot,
    dropWhile_all_append _ _ _ _ hdigI hdot]
  simp only [parseParts, if_pos rfl, hne, hall, Bool.false_and, Bool.not_true,
    Bool.or_false, Bool.false_eq_true, if_false]
  rw [digitsToNat_natRepr, digitsToNat_fracDigits k1 _, fracDigits_length k1 _ hmod]
  rw [if_pos trivial]
  congr 1
  have h10 : ((10 : ℚ) ^ k1) ≠ 0 := by positivity
  rw [eq_div_iff h10, add_mul, div_mul_cancel₀ _ h10]
  exact_mod_cast Nat.div_add_mod' m (10 ^ k1)

theorem digitChar_props (d : ℕ) (hd : d < 10) :
    digitChar d ≠ ':' ∧ isPySpace (digitChar d) = false ∧
      digitChar d ≠ '-' ∧ digitChar d ≠ '+' := by
  interval_cases d <;> exact ⟨by decide, by decide, by decide, by decide⟩

theorem renderScore_chars (q : ℚ) :
    ∀ c ∈ renderScore q, c ≠ ':' ∧ isPySpace c = false := by
  intro c hc
  have hdig : ∀ l : List Char, (∀ x ∈ l, ∃ d, d < 10 ∧ x = digitChar d) →
      c ∈ l → c ≠ ':' ∧ isPySpace c = false := by
    intro l hl hcl
    rcases hl c hcl with ⟨d, hd, rfl⟩
    exact ⟨(digitChar_props d hd).1, (digitChar_props d hd).2.1⟩
  have hsign : c ∈ (if q < 0 then ['-'] else []) →
      c ≠ ':' ∧ isPySpace c = false := by
    intro hcs
    by_cases hq : q < 0
    · rw [if_pos hq] at hcs
      rw [List.mem_singleton.mp hcs]
      exact ⟨by decide, by decide⟩
    · rw [if_neg hq] at hcs
      exact absurd hcs (List.not_mem_nil c)
  rcases hdec : decExp q.den with _ | k
  · simp only [renderScore, hdec] at hc
    rcases List.mem_append.mp hc with hc1 | hc1
    · rcases List.mem_append.mp hc1 with hc2 | hc2
      · exact hsign hc2
      · exact hdig _ (natRepr_digits _) hc2
    · rcases List.mem_cons.mp hc1 with rfl | hc2
      · exact ⟨by decide, by decide⟩
      · exact hdig _ (natRepr_digits _) hc2
  · simp only [renderScore, hdec] at hc
    rcases List.mem_append.mp hc with hc1 | hc1
    · rcases List.mem_append.mp hc1 with hc2 | hc2
      · exact hsign hc2
      · exact hdig _ (natRepr_digits _) hc2
    · rcases List.mem_cons.mp hc1 with rfl | hc2
      · exact ⟨by decide, by decide⟩
      · exact hdig _ (fracDigits_digits _ _) hc2

theorem parseFloat_strip_minus (cs rest : List Char)
    (h : strip cs = '-' :: rest) :
    parseFloat cs = (parseUnsigned rest).map fun x => -x := by
  simp [parseFloat, h]

theorem parseFloat_strip_nosign (cs : List Char) (c0 : Char) (rest : List Char)
    (h : strip cs = c0 :: rest) (h1 : c0 ≠ '-') (h2 : c0 ≠ '+') :
    parseFloat cs = parseUnsigned (c0 :: rest) := by
  simp [parseFloat, h, h1, h2]

theorem parseFloat_renderScore (q : ℚ) (hq : ∃ e : ℕ, q.den ∣ 10 ^ e) :
    parseFloat (renderScore q) = some q := by
  rcases hq with ⟨e, he⟩
  rcases decExp_isSome q.den e q.pos he with ⟨k, hk⟩
  have hstrip : strip (renderScore q) = renderScore q :=
    strip_eq_self _ fun c hc => (renderScore_chars q c hc).2
  have hrend : renderScore q
      = (if q < 0 then ['-'] else []) ++
        natRepr (q.num.natAbs * 10 ^ max k 1 / q.den / 10 ^ max k 1) ++
        '.' :: fracDigits (max k 1)
          (q.num.natAbs * 10 ^ max k 1 / q.den % 10 ^ max k 1) := by
    simp only [renderScore, hk]
  have hdvd1 : q.den ∣ 10 ^ max k 1 :=
    (decExp_dvd _ _ hk).trans (pow_dvd_pow 10 (le_max_left k 1))
  have hval : ((q.num.natAbs * 10 ^ max k 1 / q.den : ℕ) : ℚ) / 10 ^ max k 1
      = (q.num.natAbs : ℚ) / (q.den : ℚ) := by
    have hmd : q.num.natAbs * 10 ^ max k 1 / q.den * q.den
        = q.num.natAbs * 10 ^ max k 1 :=
      Nat.div_mul_cancel (Dvd.dvd.mul_left hdvd1 _)
    have hden : ((q.den : ℚ)) ≠ 0 := by
      exact_mod_cast Nat.pos_iff_ne_zero.mp q.pos
    have h10 : ((10 : ℚ) ^ max k 1) ≠ 0 := by positivity
    rw [div_eq_div_iff h10 hden]
    exact_mod_cast hmd
  by_cases hqneg : q < 0
  · have hrend2 : renderScore q
        = '-' :: (natRepr (q.num.natAbs * 10 ^ max k 1 / q.den / 10 ^ max k 1) ++
          '.' :: fracDigits (max k 1)
            (q.num.natAbs * 10 ^ max k 1 / q.den % 10 ^ max k 1)) := by
      rw [hrend, if_pos hqneg]
      rfl
    rw [parseFloat_strip_minus _ _ (by rw [hstrip, hrend2]),
      parseUnsigned_render, Option.map_some', hval]
    congr 1
    have hnumle : q.num ≤ 0 := by
      have := Rat.num_nonneg (q := q)
      by_contra hpos
      push_neg at hpos
      exact absurd (this.mp (le_of_lt hpos)) (not_le.mpr hqneg)
    have hnum : (q.num.natAbs : ℚ) = -(q.num : ℚ) := by
      rw [Int.cast_natAbs, abs_of_nonpos hnumle]
      exact Int.cast_neg q.num
    rw [hnum, neg_div, neg_neg, Rat.num_div_den]
  · have hrend2 : renderScore q
        = natRepr (q.num.natAbs * 10 ^ max k 1 / q.den / 10 ^ max k 1) ++
          '.' :: fracDigits (max k 1)
            (q.num.natAbs * 10 ^ max k 1 / q.den % 10 ^ max k 1) := by
      rw [hrend, if_neg hqneg]
      rfl
    rcases hrep : natRepr (q.num.natAbs * 10 ^ max k 1 / q.den / 10 ^ max k 1)
      with _ | ⟨c0, cs0⟩
    · exact absurd hrep (natRepr_ne_nil _)
    · have hc0 : ∃ d, d < 10 ∧ c0 = digitChar d :=
        natRepr_digits _ c0 (by rw [hrep]; exact List.mem_cons_self _ _)
      rcases hc0 with ⟨d, hd, rfl⟩
      rw [parseFloat_strip_nosign _ (digitChar d)
        (cs0 ++ '.' :: fracDigits (max k 1)
          (q.num.natAbs * 10 ^ max k 1 / q.den % 10 ^ max k 1))
        (by rw [hstrip, hrend2, hrep]; rfl)
        (digitChar_props d hd).2.2.1 (digitChar_props d hd).2.2.2]
      rw [show digitChar d :: (cs0 ++ '.' :: fracDigits (max k 1)
          (q.num.natAbs * 10 ^ max k 1 / q.den % 10 ^ max k 1))
        = natRepr (q.num.natAbs * 10 ^ max k 1 / q.den / 10 ^ max k 1) ++
          '.' :: fracDigits (max k 1)
            (q.num.natAbs * 10 ^ max k 1 / q.den % 10 ^ max k 1) by rw [hrep]; rfl]
      rw [parseUnsigned_render, hval]
      congr 1
      have h0 : 0 ≤ q.num := Rat.num_nonneg.mpr (le_of_not_lt hqneg)
      have hnum : (q.num.natAbs : ℚ) = (q.num : ℚ) := by
        rw [Int.cast_natAbs, abs_of_nonneg h0]
      rw [hnum, Rat.num_div_den]

theorem load_fold_render (filenames : List Item) :
    ∀ (l : List (Item × ℚ)) (t : Table ℚ),
      (∀ p ∈ l, (∀ c ∈ p.1, c ≠ ':' ∧ isPySpace c = false) ∧ p.1 ∈ filenames ∧
        (∃ e : ℕ, p.2.den ∣ 10 ^ e)) →
      load_fold filenames t (l.map render_line)
        = some (l.foldl (fun acc p => setVal acc p.1 p.2) t) := by
  intro l
  induction l with
  | nil => intro t _; rfl
  | cons p ps ih =>
    intro t hl
    rcases hl p (List.mem_cons_self p ps) with ⟨hchars, hmem, hdec⟩
    have hline : strip (render_line p) = render_line p := by
      apply strip_eq_self
      intro c hc
      rw [render_line] at hc
      rcases List.mem_append.mp hc with hc | hc
      · exact (hchars c hc).2
      · rcases List.mem_cons.mp hc with rfl | hc
        · decide
        · exact (renderScore_chars p.2 c hc).2
    have hsplitline : splitOnCh ':' (strip (render_line p))
        = [p.1, renderScore p.2] := by
      rw [hline, render_line,
        splitOnCh_append ':' p.1 (renderScore p.2) (fun c hc => (hchars c hc).1),
        splitOnCh_no_sep ':' (renderScore p.2)
          (fun c hc => (renderScore_chars p.2 c hc).1)]
    simp only [List.map_cons, load_fold, hsplitline, if_pos hmem,
      parseFloat_renderScore p.2 hdec]
    rw [ih (setVal t p.1 p.2) fun x hx => hl x (List.mem_cons_of_mem p hx)]
    rfl

theorem lookupVal_foldl_setVal (k : Item) :
    ∀ (l : List (Item × ℚ)) (t : Table ℚ),
      lookupVal (l.foldl (fun acc p => setVal acc p.1 p.2) t) k
        = lastOr ((l.filter fun p => decide (p.1 = k)).map Prod.snd)
            (lookupVal t k) := by
  intro l
  induction l with
  | nil => intro t; rfl
  | cons p ps ih =>
    intro t
    rw [List.foldl_cons, ih (setVal t p.1 p.2), List.filter_cons]
    by_cases hp : p.1 = k
    · rw [if_pos (decide_eq_true hp), List.map_cons]
      rw [hp, lookupVal_setVal_self]
      rfl
    · rw [if_neg (by simp [hp])]
      rw [lookupVal_setVal_ne t p.1 k p.2 fun hh => hp hh.symm]

theorem filter_key_nil {α : Type} (r : Table α) (k : Item)
    (h : k ∉ keysOf r) : r.filter (fun p => decide (p.1 = k)) = [] := by
  induction r with
  | nil => rfl
  | cons p ps ih =>
    rw [keysOf_cons] at h
    have h1 : ¬(p.1 = k) := fun hh => h (List.mem_cons.mpr (Or.inl hh.symm))
    have h2 : k ∉ keysOf ps := fun hh => h (List.mem_cons.mpr (Or.inr hh))
    rw [List.filter_cons, if_neg (by simp [h1]), ih h2]

theorem filter_key_single {α : Type} (r : Table α) (k : Item) (v : α)
    (hnd : (keysOf r).Nodup) (h : lookupVal r k = some v) :
    r.filter (fun p => decide (p.1 = k)) = [(k, v)] := by
  induction r with
  | nil => simp [lookupVal] at h
  | cons p ps ih =>
    rw [keysOf_cons] at hnd
    rcases List.nodup_cons.mp hnd with ⟨hp, hps⟩
    obtain ⟨a, b⟩ := p
    by_cases ha : a = k
    · rw [lookupVal, if_pos ha, Option.some_inj] at h
      subst h
      subst ha
      rw [List.filter_cons, if_pos (by simp)]
      rw [filter_key_nil ps a hp]
    · rw [lookupVal, if_neg ha] at h
      rw [List.filter_cons, if_neg (by simp [ha]), ih hps h]

/-- C7 counterexample: a one-item table whose key contains a colon.
Saving writes the line `a:b:1000.0`; reloading it with the same
catalog splits that line into three fields and the whole load aborts —
the round trip does not reproduce the table at all. -/
theorem c7_counterexample :
    get_rankings (keysOf [((['a', ':', 'b'] : Item), (1000 : ℚ))])
      (some (save_lines [((['a', ':', 'b'] : Item), (1000 : ℚ))])) = none := by
  with_unfolding_all decide

/-- C7 amended: for a table with distinct keys (a dict guarantee)
whose keys contain no colon and no whitespace, and whose scores are
rationals with denominator dividing a power of ten (every IEEE float
is one), saving and then loading with catalog `keys(R)` succeeds and
reproduces every score exactly — exact reproduction implies the
claimed reproduction within floating-point tolerance.  The
counterexample shows the restriction on keys is necessary. -/
theorem c7_round_trip (rankings : Table ℚ)
    (hnd : (keysOf rankings).Nodup)
    (hkeys : ∀ k ∈ keysOf rankings, ∀ c ∈ k, c ≠ ':' ∧ isPySpace c = false)
    (hdec : ∀ p ∈ rankings, ∃ e : ℕ, p.2.den ∣ 10 ^ e) :
    ∃ t, get_rankings (keysOf rankings) (some (save_lines rankings)) = some t ∧
      ∀ k v, lookupVal rankings k = some v → lookupVal t k = some v := by
  have hperm := sortDesc_perm rankings
  have hcond : ∀ p ∈ sortDesc rankings,
      (∀ c ∈ p.1, c ≠ ':' ∧ isPySpace c = false) ∧ p.1 ∈ keysOf rankings ∧
      (∃ e : ℕ, p.2.den ∣ 10 ^ e) := by
    intro p hp
    have hpr : p ∈ rankings := hperm.mem_iff.mp hp
    have hkmem : p.1 ∈ keysOf rankings := List.mem_map_of_mem Prod.fst hpr
    exact ⟨hkeys p.1 hkmem, hkmem, hdec p hpr⟩
  have hload := load_fold_render (keysOf rankings) (sortDesc rankings)
    (init_table (keysOf rankings)) hcond
  refine ⟨(sortDesc rankings).foldl (fun acc p => setVal acc p.1 p.2)
    (init_table (keysOf rankings)), ?_, ?_⟩
  · simp only [get_rankings, save_lines]
    exact hload
  · intro k v hkv
    rw [lookupVal_foldl_setVal]
    have hfilter : (sortDesc rankings).filter (fun p => decide (p.1 = k))
        = [(k, v)] := by
      have h1 : rankings.filter (fun p => decide (p.1 = k)) = [(k, v)] :=
        filter_key_single rankings k v hnd hkv
      have h2 := hperm.filter fun p => decide (p.1 = k)
      rw [h1] at h2
      exact List.perm_singleton.mp h2
    rw [hfilter]
    rfl

/-- Witness for C7 amended at a one-item table with score 5/2
(rendered `2.5` and parsed back exactly). -/
theorem c7_witness :
    ∃ t, get_rankings (keysOf [((['a'] : Item), (5 / 2 : ℚ))])
        (some (save_lines [((['a'] : Item), (5 / 2 : ℚ))])) = some t ∧
      ∀ k v, lookupVal [((['a'] : Item), (5 / 2 : ℚ))] k = some v →
        lookupVal t k = some v :=
  c7_round_trip [((['a'] : Item), (5 / 2 : ℚ))] (by decide) (by decide)
    (fun p hp => by
      rw [List.eq_of_mem_singleton hp]
      exact ⟨1, by with_unfolding_all decide⟩)
